import Mathlib

/-!
Verification of `src/perfect_sum.py` (`find_matching_subset`): a subset-sum
search over a list of positive integers.  The Python function returns

* the original list object when the total sum equals the target or is zero,
* a fresh empty list `[]` when the total sum is below the target or when the
  search is exhausted (the NotFound signal),
* a tuple produced by `itertools.combinations` when a combination summing to
  the target is found (sizes ascending, lexicographic index order within a
  size, with a size skipped when the sum of its largest elements is below the
  target).

Python lists and tuples are distinct values (`[] == ()` is `False`), so the
result type below keeps the list/tuple distinction.  The in-place descending
sort performed on the caller's list is modelled separately by
`find_matching_subset_finalList`.
-/

open List

namespace PerfectSum

/-- A Python value returned by `find_matching_subset`: either a list or a
tuple of integers.  The distinction matters because the NotFound signal is the
empty list while a found empty combination is the empty tuple. -/
inductive PyResult where
  | pylist (xs : List Int)
  | pytuple (xs : List Int)
deriving DecidableEq, Repr

/-- The elements carried by a result, forgetting the list/tuple distinction. -/
def resultElems : PyResult → List Int
  | .pylist xs => xs
  | .pytuple xs => xs

/-- Model of `itertools.combinations(l, k)`: all length-`k` subsequences of
`l` in lexicographic order of index positions. -/
def combinations : Nat → List Int → List (List Int)
  | 0, _ => [[]]
  | _ + 1, [] => []
  | k + 1, x :: xs => (combinations k xs).map (fun c => x :: c) ++ combinations (k + 1) xs

/-- Model of `population_list.sort(key=int, reverse=True)`: the descending
sort of the list.  For integer values the result is the unique
descending-ordered permutation, so any correct sort models Python's. -/
def sortDesc (l : List Int) : List Int := List.insertionSort (fun a b => b ≤ a) l

/-- One iteration of the depth loop (lines 89-93 of the source): at depth `k`,
skip the depth when the sum of the `k` first (largest) elements is below the
target, otherwise return the first size-`k` combination summing to the
target. -/
def subsetAtDepth (sorted : List Int) (t : Int) (k : Nat) : Option (List Int) :=
  if (sorted.take k).sum < t then none
  else (combinations k sorted).find? (fun c => c.sum == t)

/-- The depth loop over depths `0, 1, ..., n-1`, returning the first match in
that order (`for subset_depth in range(len(population_list))`). -/
def searchUpTo (sorted : List Int) (t : Int) : Nat → Option (List Int)
  | 0 => none
  | k + 1 => (searchUpTo sorted t k).orElse (fun _ => subsetAtDepth sorted t k)

/-- Model of `find_matching_subset(population_list, target_sum)`.  The local
`total_population_sum` of the source is `population_list.sum`; the in-place
sort at line 79 is `sortDesc`, after which the loop runs over depths
`range(len(population_list))`. -/
def find_matching_subset (population_list : List Int) (target_sum : Int) : PyResult :=
  if population_list.sum = target_sum ∨ population_list.sum = 0 then .pylist population_list
  else if population_list.sum < target_sum then .pylist []
  else
    match searchUpTo (sortDesc population_list) target_sum (sortDesc population_list).length with
    | some c => .pytuple c
    | none => .pylist []

/-- The contents of the caller's list after the call: unchanged when a base
case returns before line 79, otherwise sorted descending in place. -/
def find_matching_subset_finalList (l : List Int) (t : Int) : List Int :=
  if l.sum = t ∨ l.sum = 0 then l
  else if l.sum < t then l
  else sortDesc l

/-- The flat enumeration the loop walks through when nothing is pruned:
combinations of sizes `0, ..., n-1` in ascending size order. -/
def enumUpTo (sorted : List Int) : Nat → List (List Int)
  | 0 => []
  | k + 1 => enumUpTo sorted k ++ combinations k sorted

/-- All combinations of sizes `0, ..., length-1` in traversal order. -/
def enumeration (sorted : List Int) : List (List Int) := enumUpTo sorted sorted.length

/-- There is exactly one combination of size zero, the empty one. -/
theorem combinations_zero : ∀ l : List Int, combinations 0 l = [[]] := by
  intro l
  cases l <;> rfl

/-- Every member of `combinations k l` is a length-`k` subsequence of `l`. -/
theorem sublist_of_mem_combinations :
    ∀ {k : Nat} {l c : List Int}, c ∈ combinations k l → c <+ l ∧ c.length = k := by
  intro k l
  induction l generalizing k with
  | nil =>
    intro c h
    cases k with
    | zero =>
      simp only [combinations, mem_singleton] at h
      subst h
      exact ⟨Sublist.refl _, rfl⟩
    | succ k => simp [combinations] at h
  | cons x xs ih =>
    intro c h
    cases k with
    | zero =>
      simp only [combinations, mem_singleton] at h
      subst h
      exact ⟨nil_sublist _, rfl⟩
    | succ k =>
      simp only [combinations, mem_append, mem_map] at h
      rcases h with ⟨c', hc', rfl⟩ | h
      · obtain ⟨hs, hl⟩ := ih hc'
        exact ⟨hs.cons₂ x, by simp [hl]⟩
      · obtain ⟨hs, hl⟩ := ih h
        exact ⟨hs.cons x, hl⟩

/-- Every length-`k` subsequence of `l` occurs in `combinations k l`. -/
theorem mem_combinations_of_sublist :
    ∀ {c l : List Int}, c <+ l → c ∈ combinations c.length l := by
  intro c l h
  induction h with
  | slnil => exact mem_singleton_self []
  | @cons s u a h ih =>
    cases s with
    | nil => exact mem_singleton_self []
    | cons y ys =>
      simp only [length_cons, combinations, mem_append]
      exact Or.inr ih
  | @cons₂ s u a h ih =>
    simp only [length_cons, combinations, mem_append, mem_map]
    exact Or.inl ⟨s, ih, rfl⟩

/-- Prepending an element that dominates a list can only increase the sum of a
prefix of given length by exchanging it in. -/
theorem take_sum_le_cons :
    ∀ (l : List Int) (j : Nat) (x : Int), 0 ≤ x → (∀ a ∈ l, a ≤ x) →
      (l.take (j + 1)).sum ≤ x + (l.take j).sum := by
  intro l
  induction l with
  | nil => intro j x hx _; simpa using hx
  | cons y ys ih =>
    intro j x hx hall
    cases j with
    | zero =>
      simpa using hall y (mem_cons_self y ys)
    | succ j =>
      have hys : ∀ a ∈ ys, a ≤ x := fun a ha => hall a (mem_cons_of_mem y ha)
      have := ih j x hx hys
      simp only [take, sum_cons]
      omega

/-- Pruning bound: in a descending-sorted list of nonnegative integers, any
subsequence sums to at most the sum of the prefix of the same length. -/
theorem sublist_sum_le_take_sum :
    ∀ {s l : List Int}, Sorted (fun a b => b ≤ a) l → (∀ a ∈ l, 0 ≤ a) →
      s <+ l → s.sum ≤ (l.take s.length).sum := by
  intro s l hsort hpos h
  induction h with
  | slnil => simp
  | @cons s l a h ih =>
    rw [sorted_cons] at hsort
    have hpos' : ∀ b ∈ l, 0 ≤ b := fun b hb => hpos b (mem_cons_of_mem a hb)
    have ihs := ih hsort.2 hpos'
    cases hs : s.length with
    | zero =>
      rw [length_eq_zero.mp hs]
      simp
    | succ j =>
      rw [hs] at ihs
      have hstep := take_sum_le_cons l j a (hpos a (mem_cons_self a l)) hsort.1
      calc s.sum ≤ (l.take (j + 1)).sum := ihs
        _ ≤ a + (l.take j).sum := hstep
        _ = ((a :: l).take (j + 1)).sum := by simp
  | @cons₂ s l a h ih =>
    rw [sorted_cons] at hsort
    have hpos' : ∀ b ∈ l, 0 ≤ b := fun b hb => hpos b (mem_cons_of_mem a hb)
    have ihs := ih hsort.2 hpos'
    simp only [length_cons, take, sum_cons]
    omega

theorem sortDesc_perm (l : List Int) : sortDesc l ~ l := perm_insertionSort _ l

theorem sortDesc_sorted (l : List Int) :
    Sorted (fun a b => b ≤ a) (sortDesc l) := sorted_insertionSort _ l

theorem mem_sortDesc {a : Int} {l : List Int} : a ∈ sortDesc l ↔ a ∈ l :=
  (sortDesc_perm l).mem_iff

theorem sortDesc_idem (l : List Int) : sortDesc (sortDesc l) = sortDesc l :=
  eq_of_perm_of_sorted (sortDesc_perm (sortDesc l)) (sortDesc_sorted _) (sortDesc_sorted l)

theorem sortDesc_sum (l : List Int) : (sortDesc l).sum = l.sum :=
  (sortDesc_perm l).sum_eq

theorem sortDesc_length (l : List Int) : (sortDesc l).length = l.length :=
  (sortDesc_perm l).length_eq

/-- A successful depth yields a combination of that size summing to the target. -/
theorem subsetAtDepth_some {s : List Int} {t : Int} {k : Nat} {c : List Int}
    (h : subsetAtDepth s t k = some c) : c ∈ combinations k s ∧ c.sum = t := by
  unfold subsetAtDepth at h
  by_cases hp : (s.take k).sum < t
  · rw [if_pos hp] at h
    exact absurd h (by simp)
  · rw [if_neg hp] at h
    refine ⟨mem_of_find?_eq_some h, ?_⟩
    have := find?_some h
    exact of_decide_eq_true this

/-- A depth containing a subsequence that sums to the target does not fail:
the pruning test cannot fire there, and the inner search finds a match. -/
theorem subsetAtDepth_ne_none {s : List Int} {t : Int} {c : List Int}
    (hsort : Sorted (fun a b => b ≤ a) s) (hpos : ∀ a ∈ s, 0 ≤ a)
    (hsub : c <+ s) (hsum : c.sum = t) : subsetAtDepth s t c.length ≠ none := by
  unfold subsetAtDepth
  have hbound : t ≤ (s.take c.length).sum := hsum ▸ sublist_sum_le_take_sum hsort hpos hsub
  rw [if_neg (by omega)]
  intro hnone
  rw [find?_eq_none] at hnone
  exact hnone c (mem_combinations_of_sublist hsub) (by simp [hsum])

/-- A failed search means every depth below the bound failed. -/
theorem searchUpTo_none {s : List Int} {t : Int} :
    ∀ {n : Nat}, searchUpTo s t n = none → ∀ j, j < n → subsetAtDepth s t j = none := by
  intro n
  induction n with
  | zero => intro _ j hj; omega
  | succ n ih =>
    intro h j hj
    unfold searchUpTo at h
    cases hs : searchUpTo s t n with
    | some c => rw [hs] at h; exact absurd h (by simp [Option.orElse])
    | none =>
      rw [hs] at h
      simp only [Option.orElse, Option.none_orElse] at h
      rcases Nat.lt_succ_iff_lt_or_eq.mp hj with hj' | rfl
      · exact ih hs j hj'
      · exact h

/-- A successful search returns the match of the first successful depth. -/
theorem searchUpTo_some {s : List Int} {t : Int} {c : List Int} :
    ∀ {n : Nat}, searchUpTo s t n = some c →
      ∃ k, k < n ∧ subsetAtDepth s t k = some c ∧ ∀ j, j < k → subsetAtDepth s t j = none := by
  intro n
  induction n with
  | zero => intro h; exact absurd h (by simp [searchUpTo])
  | succ n ih =>
    intro h
    unfold searchUpTo at h
    cases hs : searchUpTo s t n with
    | some c0 =>
      rw [hs] at h
      simp only [Option.orElse, Option.some_orElse] at h
      obtain rfl : c0 = c := by cases h; rfl
      obtain ⟨k, hk, hsk, hlow⟩ := ih hs
      exact ⟨k, Nat.lt_succ_of_lt hk, hsk, hlow⟩
    | none =>
      rw [hs] at h
      simp only [Option.orElse, Option.none_orElse] at h
      exact ⟨n, Nat.lt_succ_self n, h, searchUpTo_none hs⟩

/-- Branch lemma for lines 70-71 of the source. -/
theorem find_base_full {l : List Int} {t : Int} (h : l.sum = t ∨ l.sum = 0) :
    find_matching_subset l t = .pylist l := by
  unfold find_matching_subset
  rw [if_pos h]

/-- Branch lemma for lines 75-76 of the source. -/
theorem find_base_low {l : List Int} {t : Int} (h1 : ¬(l.sum = t ∨ l.sum = 0))
    (h2 : l.sum < t) : find_matching_subset l t = .pylist [] := by
  unfold find_matching_subset
  rw [if_neg h1, if_pos h2]

/-- Branch lemma for the search loop at lines 79-95 of the source. -/
theorem find_search {l : List Int} {t : Int} (h1 : ¬(l.sum = t ∨ l.sum = 0))
    (h2 : ¬ l.sum < t) :
    find_matching_subset l t =
      match searchUpTo (sortDesc l) t (sortDesc l).length with
      | some c => .pytuple c
      | none => .pylist [] := by
  unfold find_matching_subset
  rw [if_neg h1, if_neg h2]

/-- A list of strictly positive integers with sum zero is empty. -/
theorem eq_nil_of_pos_of_sum_eq_zero {l : List Int} (hpos : ∀ a ∈ l, 0 < a)
    (h : l.sum = 0) : l = [] := by
  by_contra hne
  exact absurd h (by have := sum_pos l hpos hne; omega)

/-- For a nonempty list of positive integers and target `0`, the function
reaches the loop and depth `0` immediately yields the empty combination. -/
theorem find_zero_target {l : List Int} (hne : l ≠ []) (hpos : ∀ a ∈ l, 0 < a) :
    find_matching_subset l 0 = .pytuple [] := by
  have hsum : 0 < l.sum := sum_pos l hpos hne
  have h1 : ¬(l.sum = 0 ∨ l.sum = 0) := by omega
  have h2 : ¬ l.sum < 0 := by omega
  rw [find_search h1 h2]
  have hn : 0 < (sortDesc l).length := by
    rw [sortDesc_length]
    exact length_pos.mpr hne
  have hd0 : subsetAtDepth (sortDesc l) 0 0 = some [] := by
    unfold subsetAtDepth
    rw [if_neg (by simp), combinations_zero]
    rfl
  cases hs : searchUpTo (sortDesc l) 0 (sortDesc l).length with
  | none => exact absurd (searchUpTo_none hs 0 hn) (by simp [hd0])
  | some c =>
    obtain ⟨k, _, hsk, hlow⟩ := searchUpTo_some hs
    cases k with
    | zero => rw [hd0] at hsk; cases hsk; rfl
    | succ k => exact absurd (hlow 0 (Nat.succ_pos k)) (by simp [hd0])

/-- C5: for every list of positive integers and non-negative target, if the
sum of all elements of the list equals the target, then `find_matching_subset`
returns the full input set (here even without the positivity and
non-negativity restrictions of the claim). -/
theorem full_set_base_case (l : List Int) (t : Int) (h : l.sum = t) :
    find_matching_subset l t = .pylist l :=
  find_base_full (Or.inl h)

/-- Witness for C5 at a concrete input. -/
theorem full_set_base_case_witness :
    find_matching_subset [1, 2, 3] 6 = .pylist [1, 2, 3] :=
  full_set_base_case [1, 2, 3] 6 (by decide)

/-- C6: for every list of positive integers and target `0`, the returned
subset is empty: the empty input hits the `total == 0` base case and returns
the empty list itself, a nonempty input reaches depth `0` of the loop and
returns the empty tuple. -/
theorem zero_target_returns_empty (l : List Int) (hpos : ∀ a ∈ l, 0 < a) :
    resultElems (find_matching_subset l 0) = [] := by
  by_cases hne : l = []
  · subst hne
    rw [find_base_full (Or.inr (by decide))]
    rfl
  · rw [find_zero_target hne hpos]
    rfl

/-- Witness for C6 at a concrete input. -/
theorem zero_target_returns_empty_witness :
    resultElems (find_matching_subset [4, 4] 0) = [] :=
  zero_target_returns_empty [4, 4] (by decide)

/-- C7: for every list of positive integers and target strictly above the
total sum, the function returns the NotFound signal (the empty list) from the
base cases, before the combination loop is ever entered. -/
theorem unreachable_target_not_found (l : List Int) (t : Int)
    (hpos : ∀ a ∈ l, 0 < a) (h : l.sum < t) :
    find_matching_subset l t = .pylist [] := by
  by_cases hz : l.sum = 0
  · have hnil := eq_nil_of_pos_of_sum_eq_zero hpos hz
    subst hnil
    exact find_base_full (Or.inr rfl)
  · exact find_base_low (by omega) h

/-- Witness for C7 at a concrete input. -/
theorem unreachable_target_not_found_witness :
    find_matching_subset [2, 3] 99 = .pylist [] :=
  unreachable_target_not_found [2, 3] 99 (by decide) (by decide)

/-- C9: the function is total and every outcome is an ordinary value: the
original list, the empty list (the NotFound signal), or a tuple. -/
theorem result_is_ordinary_value (l : List Int) (t : Int) :
    find_matching_subset l t = .pylist l ∨ find_matching_subset l t = .pylist [] ∨
      ∃ c, find_matching_subset l t = .pytuple c := by
  by_cases h1 : l.sum = t ∨ l.sum = 0
  · exact Or.inl (find_base_full h1)
  · by_cases h2 : l.sum < t
    · exact Or.inr (Or.inl (find_base_low h1 h2))
    · rw [find_search h1 h2]
      cases searchUpTo (sortDesc l) t (sortDesc l).length with
      | some c => exact Or.inr (Or.inr ⟨c, rfl⟩)
      | none => exact Or.inr (Or.inl rfl)

/-- C10: the caller's list after the call is always a permutation of the
original contents; it is unchanged exactly when a base case returns before
line 79, and otherwise it has been sorted in descending order in place. -/
theorem final_list_frame_effect (l : List Int) (t : Int) :
    find_matching_subset_finalList l t ~ l ∧
      ((l.sum = t ∨ l.sum = 0 ∨ l.sum < t) → find_matching_subset_finalList l t = l) ∧
      (¬(l.sum = t ∨ l.sum = 0 ∨ l.sum < t) →
        Sorted (fun a b => b ≤ a) (find_matching_subset_finalList l t)) := by
  unfold find_matching_subset_finalList
  by_cases h1 : l.sum = t ∨ l.sum = 0
  · rw [if_pos h1]
    exact ⟨Perm.refl l, fun _ => rfl, fun hc => absurd (by tauto) hc⟩
  · by_cases h2 : l.sum < t
    · rw [if_neg h1, if_pos h2]
      exact ⟨Perm.refl l, fun _ => rfl, fun hc => absurd (Or.inr (Or.inr h2)) hc⟩
    · rw [if_neg h1, if_neg h2]
      refine ⟨sortDesc_perm l, fun hc => absurd hc (by tauto), fun _ => sortDesc_sorted l⟩

/-- Witness for C10 at a concrete input where the sort happens. -/
theorem final_list_frame_effect_witness :
    find_matching_subset_finalList [1, 2] 2 ~ [1, 2] ∧
      Sorted (fun a b : Int => b ≤ a) (find_matching_subset_finalList [1, 2] 2) := by
  have h := final_list_frame_effect [1, 2] 2
  exact ⟨h.1, h.2.2 (by decide)⟩

/-- C8: the result of a repeated invocation on the list left behind by a
first call (which may have sorted it in place) is the result of the first
call. -/
theorem repeat_call_same_result (l : List Int) (t : Int) :
    find_matching_subset (find_matching_subset_finalList l t) t =
      find_matching_subset l t := by
  unfold find_matching_subset_finalList
  by_cases h1 : l.sum = t ∨ l.sum = 0
  · rw [if_pos h1]
  · by_cases h2 : l.sum < t
    · rw [if_neg h1, if_pos h2]
    · rw [if_neg h1, if_neg h2]
      have hs : (sortDesc l).sum = l.sum := sortDesc_sum l
      have h1' : ¬((sortDesc l).sum = t ∨ (sortDesc l).sum = 0) := by rw [hs]; exact h1
      have h2' : ¬ (sortDesc l).sum < t := by rw [hs]; exact h2
      rw [find_search h1' h2', find_search h1 h2, sortDesc_idem]

/-- C3 (amended to nonempty inputs): whenever the function returns the
NotFound value, that value is distinct from the empty-subset result it
returns for target `0` on the same (nonempty, positive) input, because the
former is the empty list and the latter the empty tuple. -/
theorem not_found_ne_empty_subset (l : List Int) (t : Int) (hne : l ≠ [])
    (hpos : ∀ a ∈ l, 0 < a) (h : find_matching_subset l t = .pylist []) :
    find_matching_subset l t ≠ find_matching_subset l 0 := by
  rw [h, find_zero_target hne hpos]
  intro hc
  cases hc

/-- Witness for C3's amended theorem at a concrete input. -/
theorem not_found_ne_empty_subset_witness :
    find_matching_subset [3] 7 ≠ find_matching_subset [3] 0 :=
  not_found_ne_empty_subset [3] 7 (by decide) (by decide) (by decide)

/-- C3 counterexample to the claim as stated: on the empty input the
function returns the very same value, the empty list, both when no solution
exists (target `1`) and as the empty-subset answer for target `0`; the
no-solution indicator is not distinct from the empty-subset result there. -/
theorem not_found_eq_empty_subset_on_nil :
    find_matching_subset [] 1 = .pylist [] ∧
      find_matching_subset [] 0 = .pylist [] ∧
      find_matching_subset [] 1 = find_matching_subset [] 0 := by
  refine ⟨by decide, by decide, by decide⟩

/-- C1: any nonempty returned subset sums exactly to the target, and its
elements are drawn from the input with multiplicities respected. -/
theorem sound_result (l : List Int) (t : Int) (hpos : ∀ a ∈ l, 0 < a) (ht : 0 ≤ t)
    (hne : resultElems (find_matching_subset l t) ≠ []) :
    (resultElems (find_matching_subset l t)).sum = t ∧
      resultElems (find_matching_subset l t) <+~ l := by
  by_cases h1 : l.sum = t ∨ l.sum = 0
  · rcases h1 with h | h
    · rw [find_base_full (Or.inl h)]
      exact ⟨h, Subperm.refl l⟩
    · have hnil := eq_nil_of_pos_of_sum_eq_zero hpos h
      subst hnil
      rw [find_base_full (Or.inr (by decide))] at hne
      exact absurd rfl hne
  · by_cases h2 : l.sum < t
    · rw [find_base_low h1 h2] at hne
      exact absurd rfl hne
    · rw [find_search h1 h2] at hne ⊢
      cases hs : searchUpTo (sortDesc l) t (sortDesc l).length with
      | none => rw [hs] at hne; exact absurd rfl hne
      | some c =>
        obtain ⟨k, _, hsk, _⟩ := searchUpTo_some hs
        obtain ⟨hmem, hcsum⟩ := subsetAtDepth_some hsk
        obtain ⟨hcsub, _⟩ := sublist_of_mem_combinations hmem
        exact ⟨hcsum, hcsub.subperm.trans (sortDesc_perm l).subperm⟩

/-- Witness for C1 at a concrete input. -/
theorem sound_result_witness :
    (resultElems (find_matching_subset [6, 3, 2] 5)).sum = 5 ∧
      resultElems (find_matching_subset [6, 3, 2] 5) <+~ [6, 3, 2] :=
  sound_result [6, 3, 2] 5 (by decide) (by decide) (by decide)

/-- C2: whenever some sub-multiset of the input sums to the target the
function returns such a subset (in particular the pruning never discards a
solvable size), and it returns the NotFound empty list whenever no
sub-multiset sums to the target. -/
theorem complete_search (l : List Int) (t : Int) (hpos : ∀ a ∈ l, 0 < a)
    (ht : 0 ≤ t) :
    ((∃ s, s <+~ l ∧ s.sum = t) →
        (resultElems (find_matching_subset l t)).sum = t ∧
          resultElems (find_matching_subset l t) <+~ l) ∧
      ((¬ ∃ s, s <+~ l ∧ s.sum = t) → find_matching_subset l t = .pylist []) := by
  have hnn : ∀ a ∈ sortDesc l, 0 ≤ a :=
    fun a ha => le_of_lt (hpos a (mem_sortDesc.mp ha))
  constructor
  · rintro ⟨s, hs, hsum⟩
    by_cases h1 : l.sum = t ∨ l.sum = 0
    · rcases h1 with h | h
      · rw [find_base_full (Or.inl h)]
        exact ⟨h, Subperm.refl l⟩
      · have hnil := eq_nil_of_pos_of_sum_eq_zero hpos h
        subst hnil
        have hs0 : s = [] := subperm_nil.mp hs
        have ht0 : t = 0 := by rw [hs0] at hsum; simpa using hsum.symm
        rw [find_base_full (Or.inr (by decide))]
        exact ⟨by simp [resultElems, ht0], Subperm.refl []⟩
    · by_cases h2 : l.sum < t
      · exfalso
        obtain ⟨u, hu, hsubl⟩ := hs
        have hle : u.sum ≤ l.sum := hsubl.sum_le_sum (fun a ha => le_of_lt (hpos a ha))
        have heq : u.sum = t := by rw [hu.sum_eq, hsum]
        omega
      · rw [find_search h1 h2]
        have hsort := sortDesc_sorted l
        have hs' : s <+~ sortDesc l := hs.trans (sortDesc_perm l).symm.subperm
        obtain ⟨u, hu, husort⟩ := hs'
        have husum : u.sum = t := by rw [hu.sum_eq, hsum]
        have hulen : u.length < (sortDesc l).length := by
          rcases lt_or_eq_of_le husort.length_le with hlt | hlen
          · exact hlt
          · exfalso
            have := husort.eq_of_length hlen
            subst this
            rw [sortDesc_sum] at husum
            exact h1 (Or.inl husum)
        have hdep := subsetAtDepth_ne_none hsort hnn husort husum
        cases hsearch : searchUpTo (sortDesc l) t (sortDesc l).length with
        | none => exact absurd (searchUpTo_none hsearch u.length hulen) hdep
        | some c =>
          obtain ⟨k, _, hsk, _⟩ := searchUpTo_some hsearch
          obtain ⟨hmem, hcsum⟩ := subsetAtDepth_some hsk
          obtain ⟨hcsub, _⟩ := sublist_of_mem_combinations hmem
          exact ⟨hcsum, hcsub.subperm.trans (sortDesc_perm l).subperm⟩
  · intro hno
    by_cases h1 : l.sum = t ∨ l.sum = 0
    · rcases h1 with h | h
      · exact absurd ⟨l, Subperm.refl l, h⟩ hno
      · have hnil := eq_nil_of_pos_of_sum_eq_zero hpos h
        subst hnil
        exact find_base_full (Or.inr (by decide))
    · by_cases h2 : l.sum < t
      · exact find_base_low h1 h2
      · rw [find_search h1 h2]
        cases hsearch : searchUpTo (sortDesc l) t (sortDesc l).length with
        | none => rfl
        | some c =>
          exfalso
          obtain ⟨k, _, hsk, _⟩ := searchUpTo_some hsearch
          obtain ⟨hmem, hcsum⟩ := subsetAtDepth_some hsk
          obtain ⟨hcsub, _⟩ := sublist_of_mem_combinations hmem
          exact hno ⟨c, hcsub.subperm.trans (sortDesc_perm l).subperm, hcsum⟩

/-- Witness for C2 at a concrete solvable input. -/
theorem complete_search_witness :
    (resultElems (find_matching_subset [4, 2, 1] 3)).sum = 3 ∧
      resultElems (find_matching_subset [4, 2, 1] 3) <+~ [4, 2, 1] :=
  (complete_search [4, 2, 1] 3 (by decide) (by decide)).1 ⟨[2, 1], by decide, by decide⟩

/-- Combinations of a size below the bound occur in the flat enumeration. -/
theorem mem_enumUpTo {s x : List Int} {j : Nat} :
    ∀ {n : Nat}, j < n → x ∈ combinations j s → x ∈ enumUpTo s n := by
  intro n
  induction n with
  | zero => intro h; omega
  | succ n ih =>
    intro hj hx
    unfold enumUpTo
    rcases Nat.lt_succ_iff_lt_or_eq.mp hj with hj' | rfl
    · exact mem_append_left _ (ih hj' hx)
    · exact mem_append_right _ hx

/-- On a descending-sorted nonnegative list, the pruned depth loop computes
the first match of the flat size-ascending enumeration: pruning only ever
removes sizes containing no match. -/
theorem searchUpTo_eq_find_enum {s : List Int} {t : Int}
    (hsort : Sorted (fun a b => b ≤ a) s) (hnn : ∀ a ∈ s, 0 ≤ a) :
    ∀ n : Nat, searchUpTo s t n = (enumUpTo s n).find? (fun c => c.sum == t) := by
  intro n
  induction n with
  | zero => rfl
  | succ n ih =>
    unfold searchUpTo enumUpTo
    rw [find?_append, ih]
    cases hf : (enumUpTo s n).find? (fun c => c.sum == t) with
    | some c => rfl
    | none =>
      have hred : (Option.orElse none fun _ => subsetAtDepth s t n) = subsetAtDepth s t n := rfl
      rw [hred, Option.none_or]
      unfold subsetAtDepth
      by_cases hp : (s.take n).sum < t
      · rw [if_pos hp]
        symm
        rw [find?_eq_none]
        intro x hx
        obtain ⟨hsub, hlen⟩ := sublist_of_mem_combinations hx
        have hle : x.sum ≤ (s.take n).sum := hlen ▸ sublist_sum_le_take_sum hsort hnn hsub
        simp only [beq_iff_eq]
        omega
      · rw [if_neg hp]

/-- C4: under the claim's side conditions, the function returns exactly the
first combination, in ascending-size and lexicographic-within-size order over
the descending-sorted list, whose sum is the target; that combination is of
minimal size among all solutions. -/
theorem first_match_order (l : List Int) (t : Int) (c : List Int)
    (hpos : ∀ a ∈ l, 0 < a) (ht : 0 < t) (hne : l.sum ≠ t)
    (hfind : (enumeration (sortDesc l)).find? (fun x => x.sum == t) = some c) :
    find_matching_subset l t = .pytuple c ∧
      ∀ s, s <+~ l → s.sum = t → c.length ≤ s.length := by
  have hsort := sortDesc_sorted l
  have hnn : ∀ a ∈ sortDesc l, 0 ≤ a :=
    fun a ha => le_of_lt (hpos a (mem_sortDesc.mp ha))
  have hsearch : searchUpTo (sortDesc l) t (sortDesc l).length = some c := by
    rw [searchUpTo_eq_find_enum hsort hnn]
    exact hfind
  obtain ⟨k, hk, hsk, hlow⟩ := searchUpTo_some hsearch
  obtain ⟨hmem, hcsum⟩ := subsetAtDepth_some hsk
  obtain ⟨hcsub, hclen⟩ := sublist_of_mem_combinations hmem
  have h1 : ¬(l.sum = t ∨ l.sum = 0) := by
    rintro (h | h)
    · exact hne h
    · have hnil := eq_nil_of_pos_of_sum_eq_zero hpos h
      subst hnil
      exact Option.noConfusion hfind
  have h2 : ¬ l.sum < t := by
    intro h2
    have hle : c.sum ≤ (sortDesc l).sum := hcsub.sum_le_sum hnn
    rw [sortDesc_sum] at hle
    omega
  constructor
  · rw [find_search h1 h2, hsearch]
  · intro s hs hsum
    obtain ⟨u, hu, husort⟩ := hs.trans (sortDesc_perm l).symm.subperm
    have husum : u.sum = t := by rw [hu.sum_eq, hsum]
    rw [← hu.length_eq, hclen]
    by_contra hlt
    have := subsetAtDepth_ne_none hsort hnn husort husum
    exact this (hlow u.length (by omega))

/-- Witness for C4 at the spec's own example, values `[5, 3, 2]`, target `5`. -/
theorem first_match_order_witness :
    find_matching_subset [5, 3, 2] 5 = .pytuple [5] ∧ (5 : Int) ≤ 5 := by
  have h := first_match_order [5, 3, 2] 5 [5] (by decide) (by decide) (by decide) (by decide)
  exact ⟨h.1, le_refl 5⟩

example : find_matching_subset [5, 3, 2] 5 = .pytuple [5] := by decide
example : find_matching_subset [2, 3, 5] 8 = .pytuple [5, 3] := by decide
example : find_matching_subset [5, 3, 2] 10 = .pylist [5, 3, 2] := by decide
example : find_matching_subset [5, 3, 2] 11 = .pylist [] := by decide
example : find_matching_subset [5, 3, 2] 0 = .pytuple [] := by decide
example : find_matching_subset [] 0 = .pylist [] := by decide
example : find_matching_subset [] 3 = .pylist [] := by decide
example : find_matching_subset [5, 3, 2] 4 = .pylist [] := by decide
example : sortDesc [2, 5, 3] = [5, 3, 2] := by decide
example : combinations 2 [5, 3, 2] = [[5, 3], [5, 2], [3, 2]] := by decide
example : enumeration [5, 3, 2] = [[], [5], [3], [2], [5, 3], [5, 2], [3, 2]] := by decide

end PerfectSum
